import Mathlib

/-!
Verification of the timeline snapshot engine.

Shallow embedding of the core operations of the repository
(timeline-core.ts: save, list, travel, cleanup; timeline-queue.ts:
enqueueSnapshot, processQueue) over an explicit model of the
content-addressable backend state (trees, commits, refs, index,
worktree) and of the process-level effects the code performs
(file writes, working-directory changes, process exits).
-/

namespace Timeline

/-! ### Generic helpers: association lists and Bool-valued sorting -/

/-- Byte-wise (code-point) lexicographic comparison of char lists,
the order git uses to sort reference names. -/
def charListLe : List Char → List Char → Bool
  | [], _ => true
  | _ :: _, [] => false
  | a :: as, b :: bs =>
    if a.toNat = b.toNat then charListLe as bs else decide (a.toNat < b.toNat)

/-- Lexicographic comparison of strings via their character data. -/
def strLe (a b : String) : Bool := charListLe a.toList b.toList

theorem charListLe_total (x y : List Char) :
    charListLe x y = true ∨ charListLe y x = true := by
  induction x generalizing y with
  | nil => exact Or.inl rfl
  | cons a as ih =>
    cases y with
    | nil => exact Or.inr rfl
    | cons b bs =>
      by_cases h : a.toNat = b.toNat
      · have h' : b.toNat = a.toNat := h.symm
        rcases ih bs with hl | hr
        · exact Or.inl (by simp [charListLe, h, hl])
        · exact Or.inr (by simp [charListLe, h', hr])
      · rcases Nat.lt_or_ge a.toNat b.toNat with hlt | hge
        · exact Or.inl (by simp [charListLe, h, hlt])
        · have h' : b.toNat ≠ a.toNat := fun e => h e.symm
          have hlt' : b.toNat < a.toNat := Nat.lt_of_le_of_ne hge h'
          exact Or.inr (by simp [charListLe, h', hlt'])

theorem strLe_total (x y : String) : strLe x y = true ∨ strLe y x = true :=
  charListLe_total x.toList y.toList

/-- Insert an element into a list so that a sorted-by-le list stays sorted. -/
def insertLe {α : Type} (le : α → α → Bool) (x : α) : List α → List α
  | [] => [x]
  | y :: ys => if le x y then x :: y :: ys else y :: insertLe le x ys

/-- Insertion sort with a Bool comparison; models the sorting that git
performs on reference names and that mktree performs on tree entries. -/
def sortLe {α : Type} (le : α → α → Bool) : List α → List α
  | [] => []
  | x :: xs => insertLe le x (sortLe le xs)

/-- Adjacent-pairs sortedness with respect to a Bool comparison. -/
def chainLe {α : Type} (le : α → α → Bool) : List α → Prop
  | [] => True
  | [_] => True
  | x :: y :: rest => le x y = true ∧ chainLe le (y :: rest)

theorem chainLe_nil {α : Type} (le : α → α → Bool) :
    chainLe le [] = True := rfl

theorem chainLe_single {α : Type} (le : α → α → Bool) (x : α) :
    chainLe le [x] = True := rfl

theorem chainLe_cons2 {α : Type} (le : α → α → Bool) (x y : α)
    (l : List α) :
    chainLe le (x :: y :: l) = (le x y = true ∧ chainLe le (y :: l)) := rfl

theorem chainLe_insertLe {α : Type} (le : α → α → Bool)
    (total : ∀ x y, le x y = true ∨ le y x = true) (x : α) :
    ∀ l : List α, chainLe le l → chainLe le (insertLe le x l) := by
  intro l
  induction l with
  | nil => intro _; exact trivial
  | cons y ys ih =>
    intro hc
    by_cases h : le x y = true
    · simp only [insertLe]
      rw [if_pos h, chainLe_cons2]
      exact ⟨h, hc⟩
    · have hyx : le y x = true := (total x y).resolve_left h
      have htail : chainLe le ys := by
        cases ys with
        | nil => exact trivial
        | cons z zs => exact ((chainLe_cons2 le y z zs) ▸ hc).2
      have hrest := ih htail
      simp only [insertLe]
      rw [if_neg h]
      cases ys with
      | nil =>
        simp only [insertLe]
        rw [chainLe_cons2]
        exact ⟨hyx, trivial⟩
      | cons z zs =>
        rw [chainLe_cons2] at hc
        by_cases h2 : le x z = true
        · simp only [insertLe]
          rw [if_pos h2, chainLe_cons2, chainLe_cons2]
          exact ⟨hyx, h2, hc.2⟩
        · simp only [insertLe] at hrest ⊢
          rw [if_neg h2] at hrest ⊢
          rw [chainLe_cons2]
          exact ⟨hc.1, hrest⟩

theorem chainLe_sortLe {α : Type} (le : α → α → Bool)
    (total : ∀ x y, le x y = true ∨ le y x = true) :
    ∀ l : List α, chainLe le (sortLe le l) := by
  intro l
  induction l with
  | nil => exact trivial
  | cons x xs ih => exact chainLe_insertLe le total x _ ih

/-- Lookup in an association list. -/
def lookupA {κ β : Type} [DecidableEq κ] (m : List (κ × β)) (k : κ) :
    Option β :=
  match m with
  | [] => none
  | (k', v) :: rest => if k' = k then some v else lookupA rest k

/-- Insert-or-replace in an association list: the semantics of
git update-ref (and of notes add -f) on the reference / notes store. -/
def upsertA {κ β : Type} [DecidableEq κ] (m : List (κ × β)) (k : κ) (v : β) :
    List (κ × β) :=
  if m.any (fun p => p.1 = k) then
    m.map (fun p => if p.1 = k then (k, v) else p)
  else
    m ++ [(k, v)]

theorem upsertA_length_of_mem {κ β : Type} [DecidableEq κ]
    (m : List (κ × β)) (k : κ) (v : β)
    (h : m.any (fun p => p.1 = k) = true) :
    (upsertA m k v).length = m.length := by
  simp [upsertA, h]

theorem upsertA_any_self {κ β : Type} [DecidableEq κ]
    (m : List (κ × β)) (k : κ) (v : β) :
    (upsertA m k v).any (fun p => p.1 = k) = true := by
  by_cases h : m.any (fun p => p.1 = k) = true
  · simp only [upsertA, h, if_true, List.any_map, List.any_eq_true]
    rcases List.any_eq_true.mp h with ⟨p, hp, hk⟩
    refine ⟨p, hp, ?_⟩
    simp only [decide_eq_true_eq] at hk ⊢
    simp [hk]
  · simp [upsertA, h, List.any_append]

/-! ### The backend (git) state model

Trees are finite maps from path to blob content, kept as association
lists; a tree object is canonically represented by its path-sorted
entry list.  Commits are stored in an append-only content-addressed
store, identified by their index of first occurrence. -/

/-- A set of (path, blob content) entries: a tree, the index,
or the working tree. -/
abbrev Entries := List (String × String)

/-- A commit object: tree, optional parent (by commit id), message. -/
structure Commit where
  tree : Entries
  parent : Option Nat
  message : String
deriving DecidableEq

/-- The modelled repository state.  refs maps full reference names
(refs/heads/...) to commit ids; branch heads and timeline references
live in the same store, as in git. -/
structure Repo where
  commits : List Commit
  headId : Nat
  branch : String
  index : Entries
  worktree : Entries
  refs : List (String × Nat)
  notes : List (Nat × String)
deriving DecidableEq

/-- The tree of a commit id (defaults to the empty tree for a dangling id). -/
def treeOf (r : Repo) (cid : Nat) : Entries :=
  (r.commits.getD cid ⟨[], none, ""⟩).tree

/-- The tree of the current line-of-work head (rev-parse followed by the
tree dereference). -/
def headTree (r : Repo) : Entries := treeOf r r.headId

/-- Equality of two entry lists as finite maps over paths. -/
def mapEqB (a b : Entries) : Bool :=
  a.all (fun p => lookupA b p.1 == lookupA a p.1) &&
  b.all (fun p => lookupA a p.1 == lookupA b p.1)

/-- Model of: git status --porcelain produced no output.  The status is
clean iff the index agrees with the head tree, every index entry agrees
with the working tree, and no untracked file exists. -/
def statusClean (r : Repo) : Bool :=
  mapEqB r.index (headTree r) &&
  r.index.all (fun p => lookupA r.worktree p.1 == some p.2) &&
  r.worktree.all (fun p => (lookupA r.index p.1).isSome)

/-- Content-addressed commit write: an identical commit object hashes to
the existing id; a new object is appended to the store. -/
def writeCommit (commits : List Commit) (c : Commit) : List Commit × Nat :=
  match commits.findIdx? (fun x => decide (x = c)) with
  | some i => (commits, i)
  | none => (commits ++ [c], commits.length)

/-! ### SnapshotWriter: the save snapshot path (timeline-core.ts save)

This models the contention-free tail of save: the code that runs once
the index.lock wait loop has found the staging structure free and the
deferred queue has been handled.  The lock-wait phase is modelled
separately below. -/

/-- Per-invocation environment of save: the millisecond clock reading
(Date.now), the ISO timestamp used in the commit message, and the
serialized metadata attached as a git note. -/
structure SaveEnv where
  nowMs : Nat
  isoTimestamp : String
  metadata : String

/-- The reference name created by save: line-of-work scoped, suffixed by
the millisecond timestamp (the source interpolates Date.now()). -/
def timelineName (branch : String) (nowMs : Nat) : String :=
  "timelines/" ++ branch ++ "/+" ++ toString nowMs ++ "_snapshot"

/-- Tree entries assembled by save: each index entry still present in the
working tree is hashed from its working-tree content (ls-files -s plus
hash-object -w), and every untracked file is added with its content
(ls-files --others --exclude-standard). -/
def buildEntries (r : Repo) : Entries :=
  (r.index.filterMap fun p => (lookupA r.worktree p.1).map (fun c => (p.1, c)))
  ++ (r.worktree.filter fun p => (lookupA r.index p.1).isNone)

/-- The canonical tree object built by mktree from explicit entries:
the path-sorted entry list. -/
def mkTree (es : Entries) : Entries :=
  sortLe (fun a b => strLe a.1 b.1) es

/-- Result of one save invocation on the contention-free path:
the new repository state, the process exit code, and whether a new
Reference was created. -/
structure SaveResult where
  repo : Repo
  exitCode : Nat
  refCreated : Bool
deriving DecidableEq

/-- The save snapshot path, step for step from the source: read the
current head commit, return silently when git status --porcelain is
empty, otherwise build the tree from working-tree contents (falling back
to the head tree when no entries exist), create a commit object with the
head as sole parent, point a fresh timeline reference at it via
update-ref, and attach the metadata note.  Every path ends in
process.exit(0). -/
def saveCore (r : Repo) (env : SaveEnv) : SaveResult :=
  let currentCommit := r.headId
  if statusClean r then
    ⟨r, 0, false⟩
  else
    let es := buildEntries r
    let tree := if es.isEmpty then headTree r else mkTree es
    let c : Commit :=
      ⟨tree, some currentCommit, "Timeline snapshot at " ++ env.isoTimestamp⟩
    let commits' := (writeCommit r.commits c).1
    let cid := (writeCommit r.commits c).2
    let name := "refs/heads/" ++ timelineName r.branch env.nowMs
    let refs' := upsertA r.refs name cid
    let notes' := upsertA r.notes cid env.metadata
    ⟨{ r with commits := commits', refs := refs', notes := notes' }, 0, true⟩

/-! ### DeferredQueue: entries, durable log, enqueue (timeline-queue.ts) -/

/-- A queued snapshot request as persisted in pending.jsonl. -/
structure QueueEntry where
  timestamp : Nat
  projectPath : String
  branch : String
  sessionId : Option String
  retries : Nat
deriving DecidableEq

/-- The JSON line that JSON.stringify produces for a queue entry
(sessionId is omitted when absent, as JSON.stringify drops undefined). -/
def serializeEntry (e : QueueEntry) : String :=
  "\x7b\"timestamp\":" ++ toString e.timestamp ++
  ",\"projectPath\":\"" ++ e.projectPath ++
  "\",\"branch\":\"" ++ e.branch ++ "\"" ++
  (match e.sessionId with
   | some sid => ",\"sessionId\":\"" ++ sid ++ "\""
   | none => "") ++
  ",\"retries\":" ++ toString e.retries ++ "\x7d"

/-- File-system operations issued against the queue log file. -/
inductive FsOp where
  | readWhole (content : String)
  | writeWhole (content : String)
deriving DecidableEq

/-- enqueueSnapshot from the source: build the entry with retries zero
and serialize it; when the log file exists, read its whole content and
issue a truncating whole-file write of content plus the new line;
otherwise write just the new line.  Returns the operation trace against
the log file and the resulting log content. -/
def enqueueSnapshot (existing : Option String) (timestamp : Nat)
    (projectPath branch : String) : List FsOp × String :=
  let entry : QueueEntry := ⟨timestamp, projectPath, branch, none, 0⟩
  let line := serializeEntry entry ++ "\n"
  match existing with
  | some content =>
      ([.readWhole content, .writeWhole (content ++ line)], content ++ line)
  | none => ([.writeWhole line], line)

/-! ### LockGuard: the index.lock wait loop in save (timeline-core.ts) -/

/-- Exponential backoff wait per attempt: 50ms doubling, capped at 1s. -/
def waitTime (attempt : Nat) : Nat := min (50 * 2 ^ attempt) 1000

/-- Outcome of the lock-wait phase of save. -/
inductive LockPhase where
  | proceed
  | skipExit
  | deferred
deriving DecidableEq

/-- The wait loop of save, step for step: at each of maxRetries
iterations check the lock (checks are indexed in the order the existsSync
calls happen); break when the lock is gone; exit the process without
enqueueing when the cumulative wait has reached the 5000ms budget;
otherwise sleep waitTime and continue.  After the loop a final existsSync
decides between enqueue-and-exit (deferred) and proceeding. -/
def lockLoopGo (lockPresent : Nat → Bool) :
    Nat → Nat → Nat → Nat → LockPhase
  | 0, _, checkIdx, _ =>
      if lockPresent checkIdx then .deferred else .proceed
  | remaining + 1, total, checkIdx, attempt =>
      if lockPresent checkIdx = false then
        (if lockPresent (checkIdx + 1) then .deferred else .proceed)
      else if 5000 ≤ total then .skipExit
      else lockLoopGo lockPresent remaining (total + waitTime attempt)
        (checkIdx + 1) (attempt + 1)

/-- The lock-wait phase with the constants of the source:
maxRetries = 10, maxWaitTime = 5000ms. -/
def lockLoop (lockPresent : Nat → Bool) : LockPhase :=
  lockLoopGo lockPresent 10 0 0 0

/-- What the front part of a hook-triggered save invocation does before
any snapshot is attempted. -/
inductive SaveFront where
  | deferredQ (exitCode : Nat) (queueContent : String)
  | skipped (exitCode : Nat)
  | proceedToSnapshot
deriving DecidableEq

/-- The front of save: run the lock-wait loop; on deferred, enqueue a
queue entry for the requested snapshot (current time, cwd, current
branch) and exit 0; on the in-loop budget exit, exit 0 without
enqueueing; otherwise fall through to the queue drain and the snapshot
path (modelled by saveCore). -/
def saveFront (lockPresent : Nat → Bool) (queueBefore : Option String)
    (branch cwd : String) (nowMs : Nat) : SaveFront :=
  match lockLoop lockPresent with
  | .proceed => .proceedToSnapshot
  | .skipExit => .skipped 0
  | .deferred =>
      .deferredQ 0 (enqueueSnapshot queueBefore nowMs cwd branch).2

/-! ### DeferredQueue drain: processQueue (timeline-queue.ts) -/

/-- One line of the persisted queue log: either a record that
JSON.parse accepts, or a malformed record on which JSON.parse throws. -/
inductive QLine where
  | good (e : QueueEntry)
  | bad (raw : String)
deriving DecidableEq

/-- Model of JSON.parse on one log line. -/
def parseLine : QLine → Option QueueEntry
  | .good e => some e
  | .bad _ => none

/-- Static facts about the machine the drain runs on: whether a stored
project path exists (process.chdir succeeds), is a valid repository
(git rev-parse succeeds), and currently has an index.lock. -/
structure QueueEnv where
  dirExists : String → Bool
  repoValid : String → Bool
  indexLocked : String → Bool

/-- Process-level state touched by the drain: the current working
directory, the advisory processor.lock file (holding a timestamp), and
the pending.jsonl queue file. -/
structure ProcState where
  cwd : String
  lockFile : Option Nat
  queueFile : Option (List QLine)
deriving DecidableEq

/-- Retry-count increment followed by the under-five check, as in the
source (the count is incremented before the ceiling comparison). -/
def requeue (pending failed : List QueueEntry) (e : QueueEntry) :
    List QueueEntry × List QueueEntry :=
  let e' := { e with retries := e.retries + 1 }
  if e'.retries < 5 then (pending ++ [e'], failed) else (pending, failed ++ [e'])

/-- Outcome of the per-entry loop inside the drain. -/
inductive LoopOutcome where
  | finished (cwd : String) (pending failed : List QueueEntry)
  | savedExit (cwd : String)
  | aborted (cwd : String)
deriving DecidableEq

/-- The per-entry loop of processQueue, step for step from the source.
For each line: JSON.parse it (on failure the catch block reparses the
same line, which throws again and aborts the whole loop); process.chdir
to the stored project path (a missing path throws and the catch requeues
without changing cwd); run git rev-parse (an invalid repository throws
and the catch requeues, cwd already changed); if index.lock exists,
requeue; otherwise import and run save, which terminates the process
with exit code 0 on every one of its paths. -/
def processLines (env : QueueEnv) :
    List QLine → String → List QueueEntry → List QueueEntry → LoopOutcome
  | [], cwd, pending, failed => .finished cwd pending failed
  | l :: rest, cwd, pending, failed =>
    match parseLine l with
    | none => .aborted cwd
    | some e =>
      if env.dirExists e.projectPath = false then
        let pf := requeue pending failed e
        processLines env rest cwd pf.1 pf.2
      else if env.repoValid e.projectPath = false then
        let pf := requeue pending failed e
        processLines env rest e.projectPath pf.1 pf.2
      else if env.indexLocked e.projectPath then
        let pf := requeue pending failed e
        processLines env rest e.projectPath pf.1 pf.2
      else
        .savedExit e.projectPath

/-- How a processQueue invocation ends: a normal return, an uncaught
exception propagating to the caller (the try/finally has run), or a
process.exit reached inside the try body (finally blocks do not run). -/
inductive RunResult where
  | ok (s : ProcState)
  | err (s : ProcState)
  | exited (code : Nat) (s : ProcState)
deriving DecidableEq

/-- processQueue, step for step from the source: return when no queue
file exists; when the processor.lock exists, reclaim it only if older
than 30s, else return; otherwise create the lock; inside try, read the
queue lines, remove the file and return if it holds no entries, else run
the per-entry loop; rewrite the queue with the surviving pending entries
(or remove it) and drop failed entries after a warning; the finally
clause removes the lock on normal and exceptional exits, but a
process.exit inside save skips it. -/
def processQueue (env : QueueEnv) (s : ProcState) (now : Nat) : RunResult :=
  match s.queueFile with
  | none => .ok s
  | some lines =>
    let acquire : Option ProcState :=
      match s.lockFile with
      | some t =>
        if 30000 < now - t then some { s with lockFile := some now } else none
      | none => some { s with lockFile := some now }
    match acquire with
    | none => .ok s
    | some s1 =>
      if lines.isEmpty then
        .ok { s1 with queueFile := none, lockFile := none }
      else
        match processLines env lines s1.cwd [] [] with
        | .savedExit cwd' => .exited 0 { s1 with cwd := cwd' }
        | .aborted cwd' => .err { s1 with cwd := cwd', lockFile := none }
        | .finished cwd' pending _failed =>
          let qf := if pending.isEmpty then none
                    else some (pending.map QLine.good)
          .ok { s1 with cwd := cwd', queueFile := qf, lockFile := none }

/-- The project paths the loop actually chdirs to, in order. -/
def chdirTargets (env : QueueEnv) (lines : List QLine) : List String :=
  lines.filterMap fun l =>
    match parseLine l with
    | some e => if env.dirExists e.projectPath then some e.projectPath else none
    | none => none

/-! ### TimelineIndex, TravelEngine, RetentionManager (timeline-core.ts) -/

/-- Bool prefix test on strings via their character data. -/
def strStarts (p s : String) : Bool := p.toList.isPrefixOf s.toList

/-- refname:short of a refs/heads/... name: the name with the eleven
characters of the refs/heads/ prefix removed. -/
def shortName (n : String) : String := String.mk (n.toList.drop 11)

/-- git for-each-ref with a name pattern: the matching references in
ascending lexicographic refname order (the default refname sort),
printed as short names. -/
def forEachRefShort (r : Repo) (fullPat : String) : List String :=
  (sortLe strLe ((r.refs.map Prod.fst).filter (fun n => strStarts fullPat n))).map
    shortName

/-- The enumeration that list prints (and travel indexes): the timeline
references of the current line of work, in the order for-each-ref emits
them. -/
def listTimelines (r : Repo) : List String :=
  forEachRefShort r ("refs/heads/timelines/" ++ r.branch ++ "/+")

/-- Resolution of a numeric travel target: 1-based index into the
for-each-ref enumeration; out of range resolves to nothing. -/
def travelResolve (r : Repo) (n : Nat) : Option String :=
  let lines := listTimelines r
  if n = 0 ∨ lines.length < n then none else lines.get? (n - 1)

/-- How a numeric travel invocation ends. -/
inductive TravelOutcome where
  | invalidExit (code : Nat) (r : Repo)
  | exitedInSave (code : Nat) (r : Repo)
deriving DecidableEq

/-- travel with a numeric target, step for step from the source: resolve
the ordinal against the for-each-ref enumeration, exiting 1 when out of
range; then await save() as the pre-travel safety snapshot.  Every path
of save ends in process.exit(0), so the process terminates inside that
call; the git restore from the resolved reference that follows in the
source is unreachable. -/
def travelNum (r : Repo) (env : SaveEnv) (n : Nat) : TravelOutcome :=
  match travelResolve r n with
  | none => .invalidExit 1 r
  | some _timelineRef => .exitedInSave 0 (saveCore r env).repo

/-- Split a character list at slashes. -/
def splitSlash (l : List Char) : List (List Char) :=
  l.foldr
    (fun c acc =>
      if c = '/' then [] :: acc
      else
        match acc with
        | a :: rest => (c :: a) :: rest
        | [] => [[c]])
    [[]]

/-- The line-of-work token cleanup extracts from a short timeline
reference name: the regex match of caret timelines slash captured
non-slash segment slash, that is the first path segment after
timelines/, requiring a further slash after it. -/
def branchToken (short : String) : Option String :=
  match splitSlash short.toList with
  | t :: seg :: _ :: _ =>
      if t = "timelines".toList ∧ seg ≠ [] then some (String.mk seg) else none
  | _ => none

/-- The set of short timeline names cleanup classifies as orphaned: the
token is extracted and rev-parse refs/heads/token fails. -/
def cleanupOrphans (r : Repo) : List String :=
  (forEachRefShort r "refs/heads/timelines/").filter fun t =>
    match branchToken t with
    | some b => (lookupA r.refs ("refs/heads/" ++ b)).isNone
    | none => false

/-- cleanup after the user confirms: git branch -D each orphaned name,
removing refs/heads/short from the reference store. -/
def cleanupRun (r : Repo) : Repo :=
  { r with
    refs := r.refs.filter
      (fun p => ((cleanupOrphans r).contains (shortName p.1)) = false) }

/-! ### Supporting lemmas -/

theorem writeCommit_getD (commits : List Commit) (c : Commit) (i : Nat)
    (h : i < commits.length) (d : Commit) :
    (writeCommit commits c).1.getD i d = commits.getD i d := by
  unfold writeCommit
  cases commits.findIdx? (fun x => decide (x = c)) with
  | none =>
    simp only [List.getD_eq_getElem?_getD]
    rw [List.getElem?_append, if_pos h]
  | some j => rfl

theorem saveCore_repo_fields (r : Repo) (env : SaveEnv)
    (hdirty : statusClean r = false) :
    (saveCore r env).repo.index = r.index ∧
    (saveCore r env).repo.worktree = r.worktree ∧
    (saveCore r env).repo.branch = r.branch ∧
    (saveCore r env).repo.headId = r.headId := by
  simp [saveCore, hdirty]

theorem headTree_saveCore (r : Repo) (env : SaveEnv)
    (hwf : r.headId < r.commits.length) (hdirty : statusClean r = false) :
    headTree (saveCore r env).repo = headTree r := by
  simp only [headTree, treeOf, saveCore, hdirty, Bool.false_eq_true,
    if_false]
  exact congrArg Commit.tree (writeCommit_getD r.commits _ r.headId hwf _)

theorem statusClean_saveCore (r : Repo) (env : SaveEnv)
    (hwf : r.headId < r.commits.length) (hdirty : statusClean r = false) :
    statusClean (saveCore r env).repo = statusClean r := by
  have h := saveCore_repo_fields r env hdirty
  have hh := headTree_saveCore r env hwf hdirty
  simp only [statusClean, h.1, h.2.1, hh]

theorem saveCore_refs (r : Repo) (env : SaveEnv)
    (hdirty : statusClean r = false) :
    (saveCore r env).repo.refs =
      upsertA r.refs ("refs/heads/" ++ timelineName r.branch env.nowMs)
        (writeCommit r.commits
          ⟨(if (buildEntries r).isEmpty then headTree r
            else mkTree (buildEntries r)),
           some r.headId,
           "Timeline snapshot at " ++ env.isoTimestamp⟩).2 := by
  simp [saveCore, hdirty]

theorem mem_insertLe {α : Type} (le : α → α → Bool) (a x : α) :
    ∀ l : List α, x ∈ insertLe le a l → x = a ∨ x ∈ l := by
  intro l
  induction l with
  | nil =>
    intro h
    simp only [insertLe, List.mem_singleton] at h
    exact Or.inl h
  | cons y ys ih =>
    intro h
    by_cases hc : le a y = true
    · simp only [insertLe] at h
      rw [if_pos hc] at h
      rcases List.mem_cons.mp h with h1 | h2
      · exact Or.inl h1
      · exact Or.inr h2
    · simp only [insertLe] at h
      rw [if_neg hc] at h
      rcases List.mem_cons.mp h with h1 | h2
      · exact Or.inr (List.mem_cons.mpr (Or.inl h1))
      · rcases ih h2 with h3 | h4
        · exact Or.inl h3
        · exact Or.inr (List.mem_cons.mpr (Or.inr h4))

theorem mem_sortLe {α : Type} (le : α → α → Bool) (x : α) :
    ∀ l : List α, x ∈ sortLe le l → x ∈ l := by
  intro l
  induction l with
  | nil =>
    intro h
    simp only [sortLe] at h
    exact absurd h (List.not_mem_nil x)
  | cons y ys ih =>
    intro h
    rcases mem_insertLe le y x _ h with h1 | h2
    · exact h1 ▸ List.mem_cons_self y ys
    · exact List.mem_cons.mpr (Or.inr (ih h2))

theorem charListLe_append_left (p : List Char) (a b : List Char) :
    charListLe (p ++ a) (p ++ b) = charListLe a b := by
  induction p with
  | nil => rfl
  | cons c cs ih => simp [charListLe, ih]

/-- Sortedness transports along a mapping that is monotone on the
elements of the list. -/
theorem chainLe_map {α β : Type} (f : α → β) (le : α → α → Bool)
    (le' : β → β → Bool) (P : α → Prop)
    (hf : ∀ x y, P x → P y → le x y = true → le' (f x) (f y) = true) :
    ∀ l : List α, (∀ x ∈ l, P x) → chainLe le l → chainLe le' (l.map f) := by
  intro l
  induction l with
  | nil => intro _ _; exact trivial
  | cons x xs ih =>
    intro hP hc
    cases xs with
    | nil => exact trivial
    | cons y ys =>
      rw [chainLe_cons2] at hc
      have h1 : le' (f x) (f y) = true :=
        hf x y (hP x (by simp)) (hP y (by simp)) hc.1
      have h2 := ih (fun z hz => hP z (List.mem_cons.mpr (Or.inr hz))) hc.2
      simp only [List.map_cons] at h2 ⊢
      rw [chainLe_cons2]
      exact ⟨h1, h2⟩

/-- Dropping the eleven-character refs/heads/ prefix preserves the
lexicographic comparison of two full reference names that share it. -/
theorem strLe_shortName (n1 n2 : String)
    (h1 : strStarts "refs/heads/" n1 = true)
    (h2 : strStarts "refs/heads/" n2 = true) :
    strLe (shortName n1) (shortName n2) = strLe n1 n2 := by
  rcases List.isPrefixOf_iff_prefix.mp h1 with ⟨t1, ht1⟩
  rcases List.isPrefixOf_iff_prefix.mp h2 with ⟨t2, ht2⟩
  have hlen : ("refs/heads/".toList).length = 11 := by decide
  have e1 : (shortName n1).toList = t1 := by
    simp only [shortName, ← ht1]
    rw [← hlen, List.drop_left]
    rfl
  have e2 : (shortName n2).toList = t2 := by
    simp only [shortName, ← ht2]
    rw [← hlen, List.drop_left]
    rfl
  simp only [strLe, e1, e2, ← ht1, ← ht2, charListLe_append_left]

theorem strStarts_trans_prefix (p q s : String)
    (hpq : strStarts p q = true) (hqs : strStarts q s = true) :
    strStarts p s = true := by
  rcases List.isPrefixOf_iff_prefix.mp hpq with ⟨t1, ht1⟩
  rcases List.isPrefixOf_iff_prefix.mp hqs with ⟨t2, ht2⟩
  apply List.isPrefixOf_iff_prefix.mpr
  exact ⟨t1 ++ t2, by rw [← ht2, ← ht1, List.append_assoc]⟩

theorem strStarts_refs_heads_pat (b : String) :
    strStarts "refs/heads/" ("refs/heads/timelines/" ++ b ++ "/+") = true := by
  apply List.isPrefixOf_iff_prefix.mpr
  refine ⟨"timelines/".toList ++ b.toList ++ "/+".toList, ?_⟩
  have h : ("refs/heads/timelines/" ++ b ++ "/+").toList =
      "refs/heads/timelines/".toList ++ b.toList ++ "/+".toList := by
    simp [String.toList, String.data_append]
  rw [h]
  have h2 : "refs/heads/timelines/".toList =
      "refs/heads/".toList ++ "timelines/".toList := by decide
  rw [h2]
  simp [List.append_assoc]

theorem chainLe_listTimelines (r : Repo) : chainLe strLe (listTimelines r) := by
  have hsorted :
      chainLe strLe
        (sortLe strLe ((r.refs.map Prod.fst).filter
          (fun n => strStarts ("refs/heads/timelines/" ++ r.branch ++ "/+") n))) :=
    chainLe_sortLe strLe strLe_total _
  apply chainLe_map shortName strLe strLe
    (fun x => strStarts "refs/heads/" x = true)
  · intro x y hx hy hle
    rw [strLe_shortName x y hx hy]
    exact hle
  · intro x hx
    have hmem := mem_sortLe _ x _ hx
    have hflt := (List.mem_filter.mp hmem).2
    simp only [decide_eq_true_eq] at hflt
    exact strStarts_trans_prefix _ _ _ (strStarts_refs_heads_pat r.branch) hflt
  · exact hsorted

theorem processLines_finished_cwd (env : QueueEnv) :
    ∀ (lines : List QLine) (cwd : String) (p f : List QueueEntry)
      (cwd' : String) (p' f' : List QueueEntry),
      processLines env lines cwd p f = .finished cwd' p' f' →
      cwd' = (chdirTargets env lines).getLastD cwd := by
  intro lines
  induction lines with
  | nil =>
    intro cwd p f cwd' p' f' h
    simp only [processLines, LoopOutcome.finished.injEq] at h
    simp [chdirTargets, h.1.symm]
  | cons l rest ih =>
    intro cwd p f cwd' p' f' h
    cases l with
    | bad raw => simp [processLines, parseLine] at h
    | good e =>
      simp only [processLines, parseLine] at h
      by_cases hd : env.dirExists e.projectPath = false
      · rw [if_pos hd] at h
        have := ih cwd _ _ cwd' p' f' h
        simp only [chdirTargets, List.filterMap_cons, parseLine, hd,
          Bool.false_eq_true, if_false]
        simpa [chdirTargets] using this
      · rw [if_neg hd] at h
        have hdt : env.dirExists e.projectPath = true := by
          cases hv : env.dirExists e.projectPath
          · exact absurd hv hd
          · rfl
        have hcons : chdirTargets env (QLine.good e :: rest) =
            e.projectPath :: chdirTargets env rest := by
          simp [chdirTargets, List.filterMap_cons, parseLine, hdt]
        by_cases hr : env.repoValid e.projectPath = false
        · rw [if_pos hr] at h
          have := ih e.projectPath _ _ cwd' p' f' h
          rw [hcons, List.getLastD_cons]
          simpa [chdirTargets] using this
        · rw [if_neg hr] at h
          by_cases hl : env.indexLocked e.projectPath = true
          · rw [if_pos hl] at h
            have := ih e.projectPath _ _ cwd' p' f' h
            rw [hcons, List.getLastD_cons]
            simpa [chdirTargets] using this
          · rw [if_neg hl] at h
            simp at h

theorem saveCore_exitCode (r : Repo) (env : SaveEnv) :
    (saveCore r env).exitCode = 0 := by
  by_cases h : statusClean r = true
  · simp [saveCore, h]
  · simp [saveCore, h]

theorem saveCore_refCreated_of_dirty (r : Repo) (env : SaveEnv)
    (h : statusClean r = false) : (saveCore r env).refCreated = true := by
  simp [saveCore, h]

/-! ### Concrete inputs used by the claim theorems -/

/-- A repository with one modified tracked file: head has a.txt at v1,
the index matches head, the working tree holds v2. -/
def repoC1 : Repo :=
  { commits := [⟨[("a.txt", "v1")], none, "init"⟩]
  , headId := 0, branch := "main"
  , index := [("a.txt", "v1")]
  , worktree := [("a.txt", "v2")]
  , refs := [("refs/heads/main", 0)], notes := [] }

/-- One fixed millisecond clock reading shared by two save calls. -/
def envC1 : SaveEnv := ⟨1700000000000, "2023-11-14T22:13:20.000Z", "m1"⟩

/-- A repository with one timeline reference (commit 1, tree a.txt v2)
and a working tree at v3 that differs from both head and the target. -/
def repoC3 : Repo :=
  { commits := [⟨[("a.txt", "v1")], none, "init"⟩,
                ⟨[("a.txt", "v2")], some 0, "snap"⟩]
  , headId := 0, branch := "main"
  , index := [("a.txt", "v1")]
  , worktree := [("a.txt", "v3")]
  , refs := [("refs/heads/main", 0),
             ("refs/heads/timelines/main/+100_snapshot", 1)]
  , notes := [] }

def envC3 : SaveEnv := ⟨200, "1970-01-01T00:00:00.200Z", "m3"⟩

/-- A repository whose working tree equals the head tree while the index
holds a staged change: the workspace content is unchanged, yet
git status --porcelain is nonempty. -/
def repoC4 : Repo :=
  { commits := [⟨[("a.txt", "v1")], none, "init"⟩]
  , headId := 0, branch := "main"
  , index := [("a.txt", "v2")]
  , worktree := [("a.txt", "v1")]
  , refs := [("refs/heads/main", 0)], notes := [] }

def envC4 : SaveEnv := ⟨300, "1970-01-01T00:00:00.300Z", "m4"⟩

/-- A clean repository with two timeline references whose millisecond
suffixes differ; the larger suffix is the newer capture. -/
def repoC5 : Repo :=
  { commits := [⟨[("a.txt", "v1")], none, "init"⟩]
  , headId := 0, branch := "main"
  , index := [("a.txt", "v1")]
  , worktree := [("a.txt", "v1")]
  , refs := [("refs/heads/main", 0),
             ("refs/heads/timelines/main/+2222222222222_snapshot", 0),
             ("refs/heads/timelines/main/+1111111111111_snapshot", 0)]
  , notes := [] }

/-- A repository whose only line of work is named feature/foo (a branch
name containing a path separator) with one timeline reference under it. -/
def repoC6 : Repo :=
  { commits := [⟨[("a.txt", "v1")], none, "init"⟩]
  , headId := 0, branch := "feature/foo"
  , index := [("a.txt", "v1")]
  , worktree := [("a.txt", "v1")]
  , refs := [("refs/heads/feature/foo", 0),
             ("refs/heads/timelines/feature/foo/+100_snapshot", 0)]
  , notes := [] }

/-- Does a file operation write bytes that start with the previously
persisted log content, that is, rewrite the existing records? -/
def opRewrites (prev : String) : FsOp → Bool
  | .writeWhole c => strStarts prev c
  | .readWhole _ => false

/-- Environment for the drain runs: every stored path exists and is a
valid repository; its index.lock is present (entries get requeued). -/
def envC8 : QueueEnv := ⟨fun _ => true, fun _ => true, fun _ => true⟩

def entryC8 : QueueEntry := ⟨11, "/locked", "main", none, 0⟩

/-- Environment where the stored path exists, is valid, and has no
index.lock, so the drain reaches the save call. -/
def envC9 : QueueEnv := ⟨fun _ => true, fun _ => true, fun _ => false⟩

def entryC9 : QueueEntry := ⟨10, "/proj1", "main", none, 0⟩

def envC10 : QueueEnv := ⟨fun _ => true, fun _ => true, fun _ => true⟩

def entryC10 : QueueEntry := ⟨11, "/locked", "main", none, 0⟩

/-! ### Claim C1 -/

/-- C1, counterexample: two save calls on the same workspace in the same
millisecond both exit 0, but only ONE timeline Reference exists
afterwards, not two distinct ones: the name suffix is the millisecond
timestamp, so both calls compute the same reference name and the second
update-ref repoints it. -/
theorem save_same_millisecond_two_references_counterexample :
    (saveCore repoC1 envC1).exitCode = 0 ∧
    (saveCore (saveCore repoC1 envC1).repo envC1).exitCode = 0 ∧
    (listTimelines (saveCore (saveCore repoC1 envC1).repo envC1).repo).length
      = 1 ∧
    ¬ (listTimelines
        (saveCore (saveCore repoC1 envC1).repo envC1).repo).length = 2 := by
  decide

/-- C1, amended: two save calls in the same millisecond on the same
workspace both succeed (exit 0) and both reach reference creation, but
the name suffix is the millisecond clock value, so the second call
computes the identical reference name and update-ref repoints the
existing Reference: the reference count does not grow. -/
theorem save_same_millisecond_repoints_existing_reference
    (r : Repo) (env : SaveEnv)
    (hwf : r.headId < r.commits.length)
    (hdirty : statusClean r = false) :
    (saveCore r env).exitCode = 0 ∧
    (saveCore (saveCore r env).repo env).exitCode = 0 ∧
    (saveCore r env).refCreated = true ∧
    (saveCore (saveCore r env).repo env).refCreated = true ∧
    (saveCore (saveCore r env).repo env).repo.refs.length =
      (saveCore r env).repo.refs.length := by
  have hd1 : statusClean (saveCore r env).repo = false := by
    rw [statusClean_saveCore r env hwf hdirty]
    exact hdirty
  refine ⟨saveCore_exitCode r env, saveCore_exitCode _ env,
    saveCore_refCreated_of_dirty r env hdirty,
    saveCore_refCreated_of_dirty _ env hd1, ?_⟩
  · have hb := (saveCore_repo_fields r env hdirty).2.2.1
    rw [saveCore_refs _ env hd1, hb, saveCore_refs r env hdirty]
    exact upsertA_length_of_mem _ _ _ (upsertA_any_self r.refs _ _)

/-- Witness for the C1 amended theorem at the concrete repository. -/
theorem save_same_millisecond_repoints_existing_reference_witness :
    repoC1.headId < repoC1.commits.length ∧
    statusClean repoC1 = false ∧
    (saveCore (saveCore repoC1 envC1).repo envC1).repo.refs.length =
      (saveCore repoC1 envC1).repo.refs.length :=
  ⟨by decide, by decide,
    (save_same_millisecond_repoints_existing_reference repoC1 envC1
      (by decide) (by decide)).2.2.2.2⟩

/-! ### Claim C2 -/

/-- C2: when the index.lock marker is present at every check of one save
invocation, the wait loop ends in the in-loop budget exit: the call
exits 0 but NOTHING is enqueued (the cumulative waits reach 5550ms,
which is at or above the 5000ms budget, at the tenth loop check, before
the enqueue-and-exit branch after the loop can run), so the requested
snapshot is silently dropped instead of appearing in the deferred log. -/
theorem save_lock_held_entire_budget_skips_without_enqueue
    (lockPresent : Nat → Bool) (h : ∀ i, lockPresent i = true)
    (q : Option String) (b c : String) (t : Nat) :
    lockLoop lockPresent = LockPhase.skipExit ∧
    saveFront lockPresent q b c t = SaveFront.skipped 0 := by
  have he : lockPresent = fun _ => true := funext h
  subst he
  exact ⟨by decide, rfl⟩

/-- Witness for the C2 theorem with the always-held lock. -/
theorem save_lock_held_entire_budget_skips_without_enqueue_witness :
    lockLoop (fun _ => true) = LockPhase.skipExit ∧
    saveFront (fun _ => true) (some "A\n") "main" "/proj" 1700000000000 =
      SaveFront.skipped 0 :=
  save_lock_held_entire_budget_skips_without_enqueue
    (fun _ => true) (fun _ => rfl) (some "A\n") "main" "/proj" 1700000000000

/-! ### Claim C3 -/

/-- C3: an out-of-range ordinal exits 1 as claimed, but a valid ordinal
never reaches the restore: travel awaits save as the safety snapshot and
every path of save ends in process.exit(0), so the process terminates
with the safety Reference created (one more timeline entry) and the
working tree left unrestored (still v3, not the v2 of the target). -/
theorem travel_exits_inside_safety_save_before_restore :
    travelNum repoC3 envC3 5 = TravelOutcome.invalidExit 1 repoC3 ∧
    travelNum repoC3 envC3 1 =
      TravelOutcome.exitedInSave 0 (saveCore repoC3 envC3).repo ∧
    (saveCore repoC3 envC3).repo.worktree = repoC3.worktree ∧
    ¬ repoC3.worktree = treeOf repoC3 1 ∧
    (listTimelines (saveCore repoC3 envC3).repo).length =
      (listTimelines repoC3).length + 1 := by
  decide

/-! ### Claim C4 -/

/-- C4, counterexample: with a staged index change whose working tree
content equals the head tree, the workspace content does not differ from
the head, yet save creates a new Reference: the guard is the emptiness
of git status --porcelain, not a tree comparison against the head. -/
theorem save_unchanged_workspace_creates_reference_counterexample :
    mapEqB repoC4.worktree (headTree repoC4) = true ∧
    (saveCore repoC4 envC4).refCreated = true ∧
    (listTimelines (saveCore repoC4 envC4).repo).length = 1 ∧
    (listTimelines repoC4).length = 0 := by
  decide

/-- C4, amended: a new Snapshot and Reference are created if and only if
git status --porcelain reports at least one entry, that is, the index
differs from the head, or a tracked file differs in the working tree, or
an untracked file exists; a fully clean workspace creates no Reference,
but a workspace whose file contents equal the head may still create
one when the index is dirty. -/
theorem save_reference_iff_status_not_clean (r : Repo) (env : SaveEnv) :
    (saveCore r env).refCreated = true ↔ statusClean r = false := by
  by_cases h : statusClean r = true
  · simp [saveCore, h]
  · simp [saveCore, h]

/-! ### Claim C5 -/

/-- C5, counterexample: with two timeline references, the enumeration
that list prints and travel indexes puts the OLDER capture (smaller
suffix) first; the newest is not the head of the list, and travel 1
resolves to the oldest, not the most recent. -/
theorem list_not_newest_first_counterexample :
    listTimelines repoC5 =
      ["timelines/main/+1111111111111_snapshot",
       "timelines/main/+2222222222222_snapshot"] ∧
    ¬ (listTimelines repoC5).head? =
        some "timelines/main/+2222222222222_snapshot" ∧
    travelResolve repoC5 1 =
      some "timelines/main/+1111111111111_snapshot" := by
  decide

/-- C5, amended: list enumerates the timeline references of the line of
work in ascending lexicographic name order (for-each-ref default refname
sort), which for the equal-width millisecond suffixes save produces is
oldest-first, not newest-first; the order is derived from the names, not
from modification times, and travel ordinal n indexes position n minus
one of this same ascending enumeration. -/
theorem list_ascending_name_order_and_travel_consistent
    (r : Repo) (n : Nat)
    (h1 : 1 ≤ n) (h2 : n ≤ (listTimelines r).length) :
    chainLe strLe (listTimelines r) ∧
    travelResolve r n = (listTimelines r).get? (n - 1) := by
  refine ⟨chainLe_listTimelines r, ?_⟩
  unfold travelResolve
  rw [if_neg]
  intro hcon
  rcases hcon with h0 | hlt
  · omega
  · omega

/-- Witness for the C5 amended theorem at the concrete repository. -/
theorem list_ascending_name_order_and_travel_consistent_witness :
    1 ≤ 1 ∧ 1 ≤ (listTimelines repoC5).length ∧
    (chainLe strLe (listTimelines repoC5) ∧
      travelResolve repoC5 1 = (listTimelines repoC5).get? 0) :=
  ⟨by decide, by decide,
    list_ascending_name_order_and_travel_consistent repoC5 1
      (by decide) (by decide)⟩

/-! ### Claim C6 -/

/-- C6: cleanup extracts only the first path segment after timelines/ as
the line-of-work token, so the timeline reference of the live branch
feature/foo is classified orphaned (branch token feature does not
resolve) and deleted, although its line of work still exists. -/
theorem cleanup_deletes_timeline_of_live_slashed_branch :
    (lookupA repoC6.refs "refs/heads/feature/foo").isSome = true ∧
    cleanupOrphans repoC6 = ["timelines/feature/foo/+100_snapshot"] ∧
    (cleanupRun repoC6).refs = [("refs/heads/feature/foo", 0)] := by
  decide

/-! ### Claim C7 -/

/-- C7, counterexample: with an existing log record, the enqueue
operation trace contains a truncating whole-file write whose bytes begin
with the previously written content: the implementation reads the whole
file and rewrites every existing record, so the claim that enqueue never
rewrites existing records is false. -/
theorem enqueue_rewrites_existing_records_counterexample :
    ((enqueueSnapshot (some "A\n") 5 "/p" "main").1.any
      (opRewrites "A\n")) = true ∧
    ¬ ((enqueueSnapshot (some "A\n") 5 "/p" "main").1.all
        (fun op => !(opRewrites "A\n" op))) = true := by
  decide

/-- C7, amended: the resulting log content is exactly the previous
content followed by one new line-delimited record (the bytes of every
previously written record are preserved in the result), but the
implementation produces it by reading the whole file and issuing one
truncating whole-file write of old content plus new line, rather than an
append operation. -/
theorem enqueue_appends_one_record_via_whole_file_write
    (prev : String) (t : Nat) (p b : String) :
    (enqueueSnapshot (some prev) t p b).2 =
      prev ++ (serializeEntry ⟨t, p, b, none, 0⟩ ++ "\n") ∧
    (enqueueSnapshot none t p b).2 =
      serializeEntry ⟨t, p, b, none, 0⟩ ++ "\n" ∧
    (enqueueSnapshot (some prev) t p b).1 =
      [FsOp.readWhole prev,
       FsOp.writeWhole (prev ++ (serializeEntry ⟨t, p, b, none, 0⟩ ++ "\n"))]
    := ⟨rfl, rfl, rfl⟩

/-! ### Claim C8 -/

/-- C8: a drain over a log whose first record is malformed ends in an
uncaught exception (the catch block reparses the malformed line and
throws again): the whole drain aborts, the remaining well-formed entry
is never examined, and the log file is left unrewritten. -/
theorem drain_aborts_on_malformed_record :
    processQueue envC8
        ⟨"/home", none, some [QLine.bad "oops", QLine.good entryC8]⟩ 100 =
      RunResult.err
        ⟨"/home", none, some [QLine.bad "oops", QLine.good entryC8]⟩ := by
  decide

/-! ### Claim C9 -/

/-- C9: a drain that acquires the advisory lock and reaches a
processable entry calls save, which terminates the process with exit 0;
the finally clause is skipped, so the processor.lock file written at
acquisition (timestamp 100) is still present at process exit, and the
queue file is not rewritten either. -/
theorem drain_process_exit_leaves_advisory_lock :
    processQueue envC9 ⟨"/home", none, some [QLine.good entryC9]⟩ 100 =
      RunResult.exited 0 ⟨"/proj1", some 100, some [QLine.good entryC9]⟩ ∧
    ¬ (some 100 : Option Nat) = none := by
  decide

/-! ### Claim C10 -/

/-- C10: a drain run that returns normally after iterating entries has
changed the working directory of the process to the stored project path
of each entry it reached, and never restores it: the final cwd is the
project path of the last entry that was chdir-ed to. -/
theorem drain_cwd_ends_at_last_processed_entry
    (env : QueueEnv) (s : ProcState) (now : Nat) (lines : List QLine)
    (cwd' : String) (pending failed : List QueueEntry)
    (hq : s.queueFile = some lines)
    (hacq : s.lockFile = none ∨ ∃ t, s.lockFile = some t ∧ 30000 < now - t)
    (hrun : processLines env lines s.cwd [] [] =
      LoopOutcome.finished cwd' pending failed)
    (hne : chdirTargets env lines ≠ []) :
    cwd' = (chdirTargets env lines).getLastD s.cwd ∧
    processQueue env s now =
      RunResult.ok ⟨cwd', none,
        if pending.isEmpty then none else some (pending.map QLine.good)⟩ := by
  have hcwd :=
    processLines_finished_cwd env lines s.cwd [] [] cwd' pending failed hrun
  refine ⟨hcwd, ?_⟩
  have hlne : lines ≠ [] := by
    intro he
    subst he
    exact hne rfl
  have hemp : lines.isEmpty = false := by
    cases lines with
    | nil => exact absurd rfl hlne
    | cons a l => rfl
  rcases hacq with hA | ⟨t, hAt, hgt⟩
  · simp only [processQueue, hq, hA, hemp, Bool.false_eq_true, if_false,
      hrun]
  · simp only [processQueue, hq, hAt, hemp, Bool.false_eq_true, if_false,
      hrun, if_pos hgt]

/-- Witness for the C10 theorem: one entry whose repository is locked is
requeued; the run returns normally with cwd changed to that entry's
stored path. -/
theorem drain_cwd_ends_at_last_processed_entry_witness :
    "/locked" = (chdirTargets envC10 [QLine.good entryC10]).getLastD "/home" ∧
    processQueue envC10 ⟨"/home", none, some [QLine.good entryC10]⟩ 100 =
      RunResult.ok ⟨"/locked", none,
        some [QLine.good ⟨11, "/locked", "main", none, 1⟩]⟩ :=
  drain_cwd_ends_at_last_processed_entry envC10
    ⟨"/home", none, some [QLine.good entryC10]⟩ 100 [QLine.good entryC10]
    "/locked" [⟨11, "/locked", "main", none, 1⟩] []
    rfl (Or.inl rfl) (by decide) (by decide)

end Timeline
